import Mathlib

set_option synthInstance.maxSize 4096

/-!
Shallow embedding of `update_dark_mode.py`.

The program is a one-shot source-tree rewriter.  `update_file` reads a file
as UTF-8 text, applies 17 ordered `re.sub` substitutions followed by one
literal `str.replace`, and writes the file back (reporting it) only when the
text changed.  `process_directory` walks a directory tree with `os.walk` and
invokes `update_file` on every file whose name ends with `.tsx`.

Text is modelled as `List Char`.  The 11 token-pairing patterns of the
source have the form `\btok\b` where `tok` consists of letters, digits and
hyphens; the remaining patterns are metacharacter-free literals, so each
rule is a global leftmost non-overlapping substitution, with an optional
word-boundary check at both ends of the matched token.  Word characters are
modelled as ASCII alphanumerics or underscore (the Python `\b` over the
ASCII texts this tool processes).
-/

namespace UpdateDarkMode

/-- A text buffer (Python `str`), modelled as a list of characters. -/
abbrev Str := List Char

/-- Word characters for the regex `\b` word boundary: `[A-Za-z0-9_]`. -/
def isWordChar (c : Char) : Bool := c.isAlphanum || c == '_'

/-- The `\b` test against the character adjacent to a candidate match
(`none` means the edge of the text, where `\b` holds). -/
def boundaryOk : Option Char → Bool
  | none => true
  | some c => !isWordChar c

/-- One pattern→replacement rule of `update_file`: `wb = true` for the
`\btok\b` token-pairing patterns, `wb = false` for the literal patterns. -/
structure Rule where
  wb : Bool
  tok : Str
  rep : Str

/-- Does rule `r` match at the current scan position?  `prev` is the
character just before the position in the original text, `s` the remaining
text.  A match requires `tok` to occur literally, and for word-bounded
rules the characters adjacent to the matched span must not be word
characters. -/
def matchesAt (r : Rule) (prev : Option Char) (s : Str) : Bool :=
  r.tok.isPrefixOf s &&
    (!r.wb || (boundaryOk prev && boundaryOk ((s.drop r.tok.length).head?)))

/-- The scan of a global leftmost non-overlapping substitution, exactly the
behaviour of `re.sub` (and of `str.replace` for literal patterns): at each
position, replace a match and resume after it, otherwise copy one character.
`fuel` is an upper bound on the number of steps; it is initialised to the
length of the text, which suffices because every step consumes at least one
character of the remaining text. -/
def subFuel (r : Rule) : Nat → Option Char → Str → Str
  | 0, _, s => s
  | _ + 1, _, [] => []
  | fuel + 1, prev, c :: cs =>
    if matchesAt r prev (c :: cs) then
      r.rep ++ subFuel r fuel r.tok.getLast? ((c :: cs).drop r.tok.length)
    else
      c :: subFuel r fuel (some c) cs

/-- Global substitution of one rule over a whole text
(`re.sub(pattern, replacement, text)` / `text.replace(old, new)`). -/
def subst (r : Rule) (s : Str) : Str := subFuel r s.length none s

/-- Shorthand for writing rule texts. -/
def S (s : String) : Str := s.toList

/-- The `replacements` list of `update_file` (source lines 13–33), in
order: 11 word-bounded token-pairing rules, then the duplicate/collision
cleanup rules and the `dark:bg-gray-700` → `dark:bg-gray-800`
standardization. -/
def replacements : List Rule := [
  ⟨true, S "bg-white", S "bg-white dark:bg-black"⟩,
  ⟨true, S "bg-gray-50", S "bg-gray-50 dark:bg-gray-900"⟩,
  ⟨true, S "bg-gray-100", S "bg-gray-100 dark:bg-gray-800"⟩,
  ⟨true, S "text-gray-900", S "text-gray-900 dark:text-white"⟩,
  ⟨true, S "text-gray-800", S "text-gray-800 dark:text-gray-100"⟩,
  ⟨true, S "text-gray-700", S "text-gray-700 dark:text-gray-200"⟩,
  ⟨true, S "text-gray-600", S "text-gray-600 dark:text-gray-300"⟩,
  ⟨true, S "text-gray-500", S "text-gray-500 dark:text-gray-400"⟩,
  ⟨true, S "border-gray-200", S "border-gray-200 dark:border-gray-700"⟩,
  ⟨true, S "border-gray-300", S "border-gray-300 dark:border-gray-600"⟩,
  ⟨true, S "divide-gray-200", S "divide-gray-200 dark:divide-gray-700"⟩,
  ⟨false, S "dark:bg-black dark:bg-black", S "dark:bg-black"⟩,
  ⟨false, S "dark:bg-black dark:bg-gray-800", S "dark:bg-black"⟩,
  ⟨false, S "dark:bg-gray-800 dark:bg-black", S "dark:bg-black"⟩,
  ⟨false, S "dark:text-white dark:text-white", S "dark:text-white"⟩,
  ⟨false, S "dark:bg-gray-700", S "dark:bg-gray-800"⟩,
  ⟨false, S "dark:bg-gray-800 dark:bg-black", S "dark:bg-black"⟩]

/-- The final literal cleanup (source line 50):
`new_content.replace('dark:bg-black dark:bg-gray-800', 'dark:bg-black')`. -/
def finalRule : Rule := ⟨false, S "dark:bg-black dark:bg-gray-800", S "dark:bg-black"⟩

/-- The full per-file text transform of `update_file`: the 17 ordered
substitutions of `replacements`, each seeing the output of the previous
one, followed by the final literal replacement. -/
def transform (s : Str) : Str :=
  subst finalRule (replacements.foldl (fun acc r => subst r acc) s)

/-- Outcome of `update_file` on one file: the content left on disk and
whether the file was written (the path is printed as updated exactly when
it was written, since the `print` sits inside the same `if`). -/
structure UpdateResult where
  content : Str
  wrote : Bool
  deriving Repr, DecidableEq

/-- `update_file` after a successful read: transform the text, and write
back (and report) only if the result differs from the original. -/
def update_file (content : Str) : UpdateResult :=
  let newContent := transform content
  if newContent == content then ⟨content, false⟩ else ⟨newContent, true⟩

/-! ### Occurrence counting and containment -/

/-- Does `p` occur as a contiguous substring of `s`? -/
def containsSub (p : Str) : Str → Bool
  | [] => p.isEmpty
  | c :: cs => p.isPrefixOf (c :: cs) || containsSub p cs

/-- Number of positions of `s` at which `p` occurs (all occurrences,
overlapping ones included). -/
def countOcc (p : Str) : Str → Nat
  | [] => 0
  | c :: cs => (if p.isPrefixOf (c :: cs) then 1 else 0) + countOcc p cs

/-- Number of positions strictly inside `x` at which `p` begins (the
occurrence may run on into `y`). -/
def countStart (p : Str) : Str → Str → Nat
  | [], _ => 0
  | c :: x', y =>
    (if p.isPrefixOf ((c :: x') ++ y) then 1 else 0) + countStart p x' y

/-- Number of positions of `s` at which `p` occurs followed by a word
boundary (the character right after the occurrence, if any, is not a word
character).  This counts the whole-token occurrences of `p` whose own text
already supplies the left-hand context of the embedded pairing pattern. -/
def countTB (p : Str) : Str → Nat
  | [] => 0
  | c :: cs =>
    (if p.isPrefixOf (c :: cs) && boundaryOk (((c :: cs).drop p.length).head?)
     then 1 else 0) + countTB p cs

/-! ### Match detection (for the no-op / frame property) -/

/-- Does rule `r` match anywhere in the remaining text (scan carrying the
previous character, as `subFuel` does)? -/
def hasMatch (r : Rule) : Nat → Option Char → Str → Bool
  | 0, _, _ => false
  | _ + 1, _, [] => false
  | fuel + 1, prev, c :: cs =>
    matchesAt r prev (c :: cs) || hasMatch r fuel (some c) cs

/-- Does rule `r` match anywhere in the whole text `s`? -/
def ruleFires (r : Rule) (s : Str) : Bool := hasMatch r s.length none s

/-- `true` when no rule of the pipeline (the 17 `replacements` and the
final literal replacement) matches anywhere in `s`. -/
def matchesNone (s : Str) : Bool :=
  (replacements ++ [finalRule]).all (fun r => !ruleFires r s)

/-- The 11 "light" tokens of the fixed pairing map. -/
def lightTokens : List Str := replacements.take 11 |>.map Rule.tok

/-! ### Error propagation model (`update_file` has no try/except) -/

/-- `update_file` including the fallible read: `open`/`read`/UTF-8 decode
happen first (line 5–6 of the source); if they raise, the exception
propagates before any transformation or write is attempted, so no
`UpdateResult` (and in particular no write) is produced. -/
def update_file_io (readRes : Except String Str) : Except String UpdateResult :=
  match readRes with
  | Except.error e => Except.error e
  | Except.ok content => Except.ok (update_file content)

/-- Sequential processing of a list of files (the loop of
`process_directory`): files are handled one at a time and an uncaught
exception aborts the whole run, leaving the remaining files unprocessed. -/
def process_files : List (Except String Str) → Except String (List UpdateResult)
  | [] => Except.ok []
  | r :: rs =>
    match update_file_io r with
    | Except.error e => Except.error e
    | Except.ok u =>
      match process_files rs with
      | Except.error e => Except.error e
      | Except.ok us => Except.ok (u :: us)

/-! ### Directory walking (`process_directory`) -/

mutual
/-- A filesystem entry: a plain file or a directory with children. -/
inductive FSEntry : Type where
  | file (name : Str) : FSEntry
  | dir (name : Str) (children : FSList) : FSEntry
/-- A list of sibling filesystem entries. -/
inductive FSList : Type where
  | nil : FSList
  | cons (e : FSEntry) (es : FSList) : FSList
end

/-- `os.path.join(root, name)`. -/
def pathJoin (root name : Str) : Str := root ++ '/' :: name

/-- Names of the plain files among a directory's children (the `files`
component of an `os.walk` triple). -/
def fileNames : FSList → List Str
  | FSList.nil => []
  | FSList.cons (FSEntry.file n) es => n :: fileNames es
  | FSList.cons (FSEntry.dir _ _) es => fileNames es

/-- Names of the subdirectories among a directory's children (the `dirs`
component of an `os.walk` triple). -/
def dirNames : FSList → List Str
  | FSList.nil => []
  | FSList.cons (FSEntry.file _) es => dirNames es
  | FSList.cons (FSEntry.dir n _) es => n :: dirNames es

mutual
/-- `os.walk(root)` (top-down): the triple for the directory itself, then
the walks of its subdirectories in order.  Walking a plain file yields
nothing. -/
def osWalk (root : Str) : FSEntry → List (Str × List Str × List Str)
  | FSEntry.file _ => []
  | FSEntry.dir _ ch => (root, dirNames ch, fileNames ch) :: osWalkChildren root ch
/-- The walks of the subdirectories among `ch`, each rooted at the joined
path. -/
def osWalkChildren (root : Str) : FSList → List (Str × List Str × List Str)
  | FSList.nil => []
  | FSList.cons (FSEntry.file _) es => osWalkChildren root es
  | FSList.cons (FSEntry.dir n ch) es =>
    osWalk (pathJoin root n) (FSEntry.dir n ch) ++ osWalkChildren root es
end

/-- `name.endswith('.tsx')`. -/
def endsWithTsx (name : Str) : Bool := (S ".tsx").isSuffixOf name

/-- `process_directory`: for every `os.walk` triple, the loop invokes
`update_file` on `os.path.join(root, file)` exactly for the file names
ending in `.tsx`.  The result is the list of paths on which `update_file`
is invoked (no other file is opened, read or written anywhere in the
function). -/
def process_directory (root : Str) (e : FSEntry) : List Str :=
  (osWalk root e).flatMap
    (fun fr => (fr.2.2.filter endsWithTsx).map (fun f => pathJoin fr.1 f))

mutual
/-- Specification-side enumeration: the `(directory, name)` pairs of every
file reachable by recursive descent from the entry. -/
def allFiles (root : Str) : FSEntry → List (Str × Str)
  | FSEntry.file _ => []
  | FSEntry.dir _ ch => allFilesIn root ch
/-- Reachable files of a sibling list: files here, then files of the
subtrees. -/
def allFilesIn (root : Str) : FSList → List (Str × Str)
  | FSList.nil => []
  | FSList.cons (FSEntry.file n) es => (root, n) :: allFilesIn root es
  | FSList.cons (FSEntry.dir n ch) es =>
    allFiles (pathJoin root n) (FSEntry.dir n ch) ++ allFilesIn root es
end

/-- The paths `process_directory`'s loop passes to `update_file`, for a
given list of `os.walk` frames. -/
def procFrames (frames : List (Str × List Str × List Str)) : List Str :=
  frames.flatMap (fun fr => (fr.2.2.filter endsWithTsx).map (fun f => pathJoin fr.1 f))

/-- Specification side of the walker contract: the joined paths of the
reachable files whose name ends with `.tsx`. -/
def specFiles (root : Str) (e : FSEntry) : List Str :=
  ((allFiles root e).filter (fun pr => endsWithTsx pr.2)).map (fun pr => pathJoin pr.1 pr.2)

/-- As `specFiles`, for a sibling list. -/
def specFilesIn (root : Str) (ch : FSList) : List Str :=
  ((allFilesIn root ch).filter (fun pr => endsWithTsx pr.2)).map (fun pr => pathJoin pr.1 pr.2)

/-- The character the scan carries as `prev` after copying the span `x`:
the last character of `x`, or the incoming `prev` when `x` is empty. -/
def lastOr : Str → Option Char → Option Char
  | [], prev => prev
  | c :: x, _ => lastOr x (some c)

/-! ### Side conditions used by the occurrence-tracking lemmas.

These are decidable string-combinatorial facts about the concrete rule
texts; the general lemmas below take them as hypotheses and the claim
theorems discharge them by `decide`. -/

/-- `t` has no nonempty proper border: no nonzero drop of `t` is a prefix
of `t`.  (Occurrences of an unbordered text cannot overlap each other.) -/
abbrev Unbordered (t : Str) : Prop :=
  ∀ k, k < t.length → 0 < k → ¬ ((t.drop k) <+: t)

/-- No match of `r.tok` can begin `k` characters into an occurrence of
`t`: either the texts disagree from the start, or the rule is
word-bounded and the character of `t` just before that position is a word
character, so the leading `\b` of the pattern blocks the match. -/
abbrev QSafe (t : Str) (r : Rule) : Prop :=
  ∀ k, k < t.length → 0 < k →
    (¬((t.drop k) <+: r.tok) ∧ ¬(r.tok <+: (t.drop k))) ∨
    (r.wb = true ∧ isWordChar ((t.take k).getLastD ' ') = true)

/-- At offset `i` into a match of `r.tok`, an occurrence of `t` cannot be
lost: either the two texts disagree; or the rule is word-bounded and the
character of `t` right after the shared span is a word character, so the
trailing `\b` blocks that match; or (the interesting case) the shared
span `r.tok.drop i` is also a suffix of the replacement, so the
occurrence reappears at the end of `r.rep` — and `i` is the only offset
at which an occurrence can sit. -/
abbrev OtherSafe (t : Str) (r : Rule) : Prop :=
  ∀ i, i < r.tok.length →
    (¬(t <+: (r.tok.drop i)) ∧ ¬((r.tok.drop i) <+: t)) ∨
    ((r.tok.drop i) <+: t ∧ r.tok.length - i < t.length ∧ r.wb = true ∧
      isWordChar ((t.drop (r.tok.length - i)).headD ' ') = true) ∨
    (0 < i ∧ (r.tok.drop i) <+: t ∧ r.tok.length - i < t.length ∧
      (r.tok.drop i) <:+ r.rep ∧
      ∀ j, j < r.tok.length →
        (j = i ∨ (¬(t <+: (r.tok.drop j)) ∧ ¬((r.tok.drop j) <+: t))))

/-- Occurrences of `t` survive one pass of rule `r` (the count cannot
drop): either `r` is the pairing rule of `t` itself — the replacement
re-emits `t` in front and `t` is unbordered — or matches of `r.tok` can
never destroy an occurrence of `t`. -/
abbrev SafeFor (t : Str) (r : Rule) : Prop :=
  (r.tok = t ∧ t <+: r.rep ∧ Unbordered t) ∨
  (r.tok ≠ t ∧ OtherSafe t r ∧ QSafe t r)

instance decSafeForPred (t : Str) :
    DecidablePred (fun r : Rule => r.tok ≠ [] ∧ SafeFor t r) :=
  fun r => inferInstanceAs (Decidable (r.tok ≠ [] ∧ SafeFor t r))

/-- Conditions under which one pass of rule `r` cannot create an
occurrence of `p` out of its replacement text: `p` does not occur in
`r.rep`, no nonempty proper prefix of `p` ends `r.rep`, and no nonempty
drop of `p` agrees with the start of `r.rep` (in either containment
direction). -/
abbrev AbsOk (p : Str) (r : Rule) : Prop :=
  containsSub p r.rep = false ∧
  ∀ k, k < p.length → 0 < k →
    ¬((p.take k) <:+ r.rep) ∧ ¬((p.drop k) <+: r.rep) ∧ ¬(r.rep <+: (p.drop k))

/-- Occurrences of `u` with a trailing word boundary survive one pass of
rule `r`: matches of `r.tok` never overlap such an occurrence (in
particular never begin at its boundary character, because `r.tok` starts
with a word character). -/
abbrev SafeTB (u : Str) (r : Rule) : Prop :=
  (∀ i, i < r.tok.length → ¬(u <+: (r.tok.drop i)) ∧ ¬((r.tok.drop i) <+: u)) ∧
  (∀ k, k < u.length → 0 < k →
    ¬((u.drop k) <+: r.tok) ∧ ¬(r.tok <+: (u.drop k))) ∧
  isWordChar (r.tok.headD ' ') = true

/-! ## Theorems -/

/-! ### Basic facts about prefixes, containment and counting -/

theorem sfx_cons {u t : Str} (h : u <:+ t) (c : Char) : u <:+ c :: t := by
  obtain ⟨w, rfl⟩ := h
  exact ⟨c :: w, rfl⟩

theorem pfx_extend {p a : Str} (h : p <+: a) (b : Str) : p <+: a ++ b :=
  h.trans (List.prefix_append a b)

theorem pfx_append_split {p a b : Str} (h : p <+: a ++ b) :
    p <+: a ∨ (a <+: p ∧ (p.drop a.length) <+: b) := by
  induction a generalizing p with
  | nil => exact Or.inr ⟨List.nil_prefix, by simpa using h⟩
  | cons c a' ih =>
    cases p with
    | nil => exact Or.inl List.nil_prefix
    | cons d p' =>
      rw [List.cons_append, List.cons_prefix_cons] at h
      obtain ⟨rfl, h2⟩ := h
      rcases ih h2 with h3 | ⟨h3, h4⟩
      · exact Or.inl (List.cons_prefix_cons.mpr ⟨rfl, h3⟩)
      · refine Or.inr ⟨ List.cons_prefix_cons.mpr ⟨rfl, h3⟩, ?_⟩
        simpa [List.drop_succ_cons] using h4

theorem drop_succ_of_drop_eq_cons {p : Str} {k : Nat} {d : Char} {u : Str}
    (h : p.drop k = d :: u) : p.drop (k + 1) = u := by
  have h1 : p.drop (k + 1) = (p.drop k).drop 1 := by
    rw [List.drop_drop, Nat.add_comm]
  rw [h1, h, List.drop_one, List.tail_cons]

theorem drop_nil_of_le {p : Str} {k : Nat} (h : p.length ≤ k) : p.drop k = [] :=
  List.drop_eq_nil_of_le h

theorem cs_nil_of_ne {p : Str} (hp : p ≠ []) : containsSub p [] = false := by
  cases p with
  | nil => exact absurd rfl hp
  | cons c cs => rfl

theorem cs_of_pfx {p s : Str} (hp : p ≠ []) (h : p <+: s) : containsSub p s = true := by
  cases s with
  | nil => rw [List.prefix_nil] at h; exact absurd h hp
  | cons c cs =>
    rw [containsSub, Bool.or_eq_true]
    exact Or.inl (List.isPrefixOf_iff_prefix.mpr h)

theorem cs_cons_of_tail {p cs : Str} (c : Char) (h : containsSub p cs = true) :
    containsSub p (c :: cs) = true := by
  rw [containsSub, Bool.or_eq_true]
  exact Or.inr h

theorem cs_append_right {p b : Str} (a : Str) (h : containsSub p b = true) :
    containsSub p (a ++ b) = true := by
  induction a with
  | nil => simpa using h
  | cons c a' ih => exact cs_cons_of_tail c ih

theorem cs_false_cons {p : Str} {c : Char} {cs : Str}
    (h : containsSub p (c :: cs) = false) :
    p.isPrefixOf (c :: cs) = false ∧ containsSub p cs = false := by
  rw [containsSub, Bool.or_eq_false_iff] at h
  exact h

theorem cs_split {p a b : Str} (hp : p ≠ []) (h : containsSub p (a ++ b) = true) :
    containsSub p a = true ∨ containsSub p b = true ∨
      ∃ k, 0 < k ∧ k < p.length ∧ (p.take k) <:+ a ∧ (p.drop k) <+: b := by
  induction a with
  | nil => exact Or.inr (Or.inl (by simpa using h))
  | cons c a' ih =>
    rw [List.cons_append, containsSub, Bool.or_eq_true] at h
    rcases h with h1 | h2
    · have h1' : p <+: (c :: a') ++ b := by
        rw [List.cons_append]
        exact List.isPrefixOf_iff_prefix.mp h1
      rcases pfx_append_split h1' with hA | ⟨hB, hC⟩
      · exact Or.inl (cs_of_pfx hp hA)
      · by_cases hlen : (c :: a').length < p.length
        · refine Or.inr (Or.inr ⟨(c :: a').length, Nat.succ_pos _, hlen, ?_, hC⟩)
          have ht := List.prefix_iff_eq_take.mp hB
          rw [← ht]
        · have hle := hB.length_le
          have heq : c :: a' = p :=
            hB.eq_of_length (Nat.le_antisymm hle (Nat.le_of_not_lt hlen))
          exact Or.inl (cs_of_pfx hp (heq ▸ List.prefix_refl (c :: a')))
    · rcases ih h2 with hA | hB | ⟨k, hk1, hk2, hk3, hk4⟩
      · exact Or.inl (cs_cons_of_tail c hA)
      · exact Or.inr (Or.inl hB)
      · exact Or.inr (Or.inr ⟨k, hk1, hk2, sfx_cons hk3 c, hk4⟩)

theorem co_cons_le (p : Str) (c : Char) (cs : Str) :
    countOcc p cs ≤ countOcc p (c :: cs) := by
  rw [countOcc]
  exact Nat.le_add_left _ _

theorem co_append_right_le (p a b : Str) : countOcc p b ≤ countOcc p (a ++ b) := by
  induction a with
  | nil => simp
  | cons c a' ih =>
    rw [List.cons_append]
    exact ih.trans (co_cons_le p c (a' ++ b))

theorem co_one_add_le {p x : Str} (y : Str) (hp : p <+: x) (hx : x ≠ []) :
    1 + countOcc p y ≤ countOcc p (x ++ y) := by
  cases x with
  | nil => exact absurd rfl hx
  | cons c x' =>
    rw [List.cons_append, countOcc]
    have h1 : p.isPrefixOf (c :: (x' ++ y)) = true := by
      rw [List.isPrefixOf_iff_prefix]
      have h2 : p <+: (c :: x') ++ y := pfx_extend hp y
      simpa using h2
    rw [h1, if_pos rfl]
    exact Nat.add_le_add_left (co_append_right_le p x' y) 1

theorem co_skip {p : Str} :
    ∀ (x y : Str), (∀ i, i < x.length → ¬ (p <+: (x.drop i ++ y))) →
      countOcc p (x ++ y) = countOcc p y := by
  intro x
  induction x with
  | nil => intro y _; rfl
  | cons c x' ih =>
    intro y hno
    rw [List.cons_append, countOcc]
    have h0 : p.isPrefixOf (c :: (x' ++ y)) = false := by
      rw [Bool.eq_false_iff]
      intro hcon
      exact hno 0 (Nat.succ_pos _)
        (by simpa using List.isPrefixOf_iff_prefix.mp hcon)
    rw [h0, if_neg (by simp), Nat.zero_add]
    exact ih y (fun i hi => by
      have := hno (i + 1) (by simpa using Nat.succ_lt_succ hi)
      simpa [List.drop_succ_cons] using this)

theorem tb_cons_le (p : Str) (c : Char) (cs : Str) :
    countTB p cs ≤ countTB p (c :: cs) := by
  rw [countTB]
  exact Nat.le_add_left _ _

theorem tb_append_right_le (p a b : Str) : countTB p b ≤ countTB p (a ++ b) := by
  induction a with
  | nil => simp
  | cons c a' ih =>
    rw [List.cons_append]
    exact ih.trans (tb_cons_le p c (a' ++ b))

theorem tb_skip {p : Str} :
    ∀ (x y : Str), (∀ i, i < x.length → ¬ (p <+: (x.drop i ++ y))) →
      countTB p (x ++ y) = countTB p y := by
  intro x
  induction x with
  | nil => intro y _; rfl
  | cons c x' ih =>
    intro y hno
    rw [List.cons_append, countTB]
    have h0 : p.isPrefixOf (c :: (x' ++ y)) = false := by
      rw [Bool.eq_false_iff]
      intro hcon
      exact hno 0 (Nat.succ_pos _)
        (by simpa using List.isPrefixOf_iff_prefix.mp hcon)
    rw [h0, Bool.false_and, if_neg (by simp), Nat.zero_add]
    exact ih y (fun i hi => by
      have := hno (i + 1) (by simpa using Nat.succ_lt_succ hi)
      simpa [List.drop_succ_cons] using this)

/-! ### Facts about the match test and the substitution scan -/

theorem matchesAt_pfx {r : Rule} {prev : Option Char} {s : Str}
    (h : matchesAt r prev s = true) : r.tok <+: s := by
  rw [matchesAt, Bool.and_eq_true] at h
  exact List.isPrefixOf_iff_prefix.mp h.1

theorem matchesAt_false_of_no_pfx {r : Rule} {prev : Option Char} {s : Str}
    (h : ¬ (r.tok <+: s)) : matchesAt r prev s = false := by
  rw [matchesAt]
  have h0 : r.tok.isPrefixOf s = false := by
    rw [Bool.eq_false_iff]
    intro hc
    exact h (List.isPrefixOf_iff_prefix.mp hc)
  rw [h0, Bool.false_and]

theorem matchesAt_of_literal {r : Rule} {prev : Option Char} {s : Str}
    (hwb : r.wb = false) (h : r.tok <+: s) : matchesAt r prev s = true := by
  rw [matchesAt, hwb]
  simp [List.isPrefixOf_iff_prefix.mpr h]

theorem matchesAt_next_boundary {r : Rule} {prev : Option Char} {s : Str}
    (h : matchesAt r prev s = true) (hwb : r.wb = true) :
    boundaryOk ((s.drop r.tok.length).head?) = true := by
  rw [matchesAt, hwb, Bool.and_eq_true] at h
  have h2 := h.2
  rw [Bool.not_true, Bool.false_or, Bool.and_eq_true] at h2
  exact h2.2

theorem subFuel_step_match {r : Rule} {fuel : Nat} {prev : Option Char} {s : Str}
    (hf : 1 ≤ fuel) (hs : s ≠ []) (hm : matchesAt r prev s = true) :
    subFuel r fuel prev s
      = r.rep ++ subFuel r (fuel - 1) r.tok.getLast? (s.drop r.tok.length) := by
  cases fuel with
  | zero => exact absurd hf (by simp)
  | succ f =>
    cases s with
    | nil => exact absurd rfl hs
    | cons c cs =>
      rw [subFuel, if_pos hm, Nat.succ_sub_one]

theorem subFuel_step_skip {r : Rule} {fuel : Nat} {prev : Option Char} {c : Char} {cs : Str}
    (hf : 1 ≤ fuel) (hm : matchesAt r prev (c :: cs) = false) :
    subFuel r fuel prev (c :: cs) = c :: subFuel r (fuel - 1) (some c) cs := by
  cases fuel with
  | zero => exact absurd hf (by simp)
  | succ f =>
    rw [subFuel, if_neg (by rw [hm]; exact Bool.false_ne_true), Nat.succ_sub_one]

theorem subFuel_copy {r : Rule} :
    ∀ (x v : Str) (fuel : Nat) (prev : Option Char),
      (x ++ v).length ≤ fuel →
      (∀ i, i < x.length → ¬(r.tok <+: (x.drop i)) ∧ ¬((x.drop i) <+: r.tok)) →
      subFuel r fuel prev (x ++ v)
        = x ++ subFuel r (fuel - x.length) (lastOr x prev) v := by
  intro x
  induction x with
  | nil =>
    intro v fuel prev _ _
    simp [lastOr]
  | cons c x' ih =>
    intro v fuel prev hf hno
    have hm : matchesAt r prev ((c :: x') ++ v) = false := by
      apply matchesAt_false_of_no_pfx
      intro hcon
      rcases pfx_append_split hcon with h1 | ⟨h2, _⟩
      · exact (hno 0 (Nat.succ_pos _)).1 (by simpa using h1)
      · exact (hno 0 (Nat.succ_pos _)).2 (by simpa using h2)
    have hf1 : 1 ≤ fuel := by
      refine Nat.le_trans ?_ hf
      simp
    rw [List.cons_append, subFuel_step_skip hf1 (by rw [← List.cons_append]; exact hm)]
    rw [ih v (fuel - 1) (some c)
      (by rw [List.length_append] at hf ⊢; simp only [List.length_cons] at hf; omega)
      (fun i hi => by
        have := hno (i + 1) (by simpa using Nat.succ_lt_succ hi)
        simpa [List.drop_succ_cons] using this)]
    have harith : fuel - 1 - x'.length = fuel - (c :: x').length := by
      simp only [List.length_cons]
      omega
    rw [harith]
    rfl

theorem pfx_cons_elim {p t : Str} {c : Char} (hp : p ≠ []) (h : p <+: c :: t) :
    ∃ p', p = c :: p' ∧ p' <+: t := by
  cases p with
  | nil => exact absurd rfl hp
  | cons d p' =>
    rw [List.cons_prefix_cons] at h
    exact ⟨p', by rw [h.1], h.2⟩

/-! ### No occurrence of a pattern after / survives a substitution pass

`subFuel_abs` is the workhorse for the standardization claim: under the
`AbsOk` side conditions the output of one scan contains no occurrence of
`p`, either because the rule's own token is `p` (every occurrence is
replaced and none is recreated) or because the input already contained no
occurrence.  The second conjunct is the invariant that makes the induction
go through: any dangling tail of `p` that starts the output already
started the input. -/

theorem subFuel_abs (p : Str) (r : Rule) (hp : p ≠ []) (htok : r.tok ≠ [])
    (habs : AbsOk p r) :
    ∀ (fuel : Nat) (prev : Option Char) (s : Str), s.length ≤ fuel →
      ((r.tok = p ∧ r.wb = false) ∨ containsSub p s = false) →
      containsSub p (subFuel r fuel prev s) = false ∧
      (∀ k, 0 < k → k < p.length → (p.drop k) <+: subFuel r fuel prev s →
        (p.drop k) <+: s) := by
  obtain ⟨hrep, hks⟩ := habs
  intro fuel
  induction fuel with
  | zero =>
    intro prev s hlen hcase
    have hs : s = [] := List.eq_nil_of_length_eq_zero (Nat.le_zero.mp hlen)
    subst hs
    exact ⟨cs_nil_of_ne hp, fun k hk0 hkp hd => hd⟩
  | succ fuel ih =>
    intro prev s hlen hcase
    cases s with
    | nil => exact ⟨cs_nil_of_ne hp, fun k hk0 hkp hd => hd⟩
    | cons c cs =>
      by_cases hm : matchesAt r prev (c :: cs) = true
      · -- a match at this position: the scan emits `r.rep` and continues
        obtain ⟨s₂, hs₂⟩ := matchesAt_pfx hm
        have hdrop : (c :: cs).drop r.tok.length = s₂ := by
          rw [← hs₂, List.drop_left]
        have hlen2 : s₂.length ≤ fuel := by
          have hl : (c :: cs).length = r.tok.length + s₂.length := by
            rw [← hs₂, List.length_append]
          have htokpos : 0 < r.tok.length := List.length_pos.mpr htok
          omega
        have hcase2 : (r.tok = p ∧ r.wb = false) ∨ containsSub p s₂ = false := by
          rcases hcase with h | h
          · exact Or.inl h
          · refine Or.inr ?_
            rw [Bool.eq_false_iff]
            intro hcon
            have hall := cs_append_right r.tok hcon
            rw [hs₂, h] at hall
            exact Bool.false_ne_true hall
        obtain ⟨ihA, ihQ⟩ := ih r.tok.getLast? s₂ hlen2 hcase2
        rw [subFuel_step_match (Nat.le_add_left 1 fuel) (List.cons_ne_nil c cs) hm,
          Nat.add_sub_cancel, hdrop]
        constructor
        · rw [Bool.eq_false_iff]
          intro hcon
          rcases cs_split hp hcon with h1 | h2 | ⟨k, hk0, hkp, htk, hdk⟩
          · rw [hrep] at h1
            exact Bool.false_ne_true h1
          · rw [ihA] at h2
            exact Bool.false_ne_true h2
          · exact (hks k hkp hk0).1 htk
        · intro k hk0 hkp hd
          rcases pfx_append_split hd with h1 | ⟨h2, _⟩
          · exact absurd h1 (hks k hkp hk0).2.1
          · exact absurd h2 (hks k hkp hk0).2.2
      · -- no match: the character is copied
        have hmf : matchesAt r prev (c :: cs) = false := Bool.eq_false_iff.mpr hm
        have hcase2 : (r.tok = p ∧ r.wb = false) ∨ containsSub p cs = false := by
          rcases hcase with h | h
          · exact Or.inl h
          · exact Or.inr (cs_false_cons h).2
        have hlen2 : cs.length ≤ fuel := by
          rw [List.length_cons] at hlen
          omega
        obtain ⟨ihA, ihQ⟩ := ih (some c) cs hlen2 hcase2
        rw [subFuel_step_skip (Nat.le_add_left 1 fuel) hmf, Nat.add_sub_cancel]
        constructor
        · rw [containsSub, Bool.or_eq_false_iff]
          refine ⟨?_, ihA⟩
          rw [Bool.eq_false_iff]
          intro hcon
          have hpf : p <+: c :: subFuel r fuel (some c) cs :=
            List.isPrefixOf_iff_prefix.mp hcon
          obtain ⟨p', hp', hp'pfx⟩ := pfx_cons_elim hp hpf
          have hdrop1 : p.drop 1 = p' := by
            rw [hp']
            rfl
          have hps : p <+: c :: cs := by
            by_cases hlen1 : 1 < p.length
            · have h1 : p.drop 1 <+: cs :=
                ihQ 1 Nat.one_pos hlen1 (by rw [hdrop1]; exact hp'pfx)
              rw [hp', List.cons_prefix_cons]
              refine ⟨rfl, ?_⟩
              rwa [hdrop1] at h1
            · have hpnil : p' = [] := by
                have hl1 : p.length = p'.length + 1 := by
                  rw [hp']
                  simp
                have hl2 : 0 < p.length := List.length_pos.mpr hp
                have : p'.length = 0 := by omega
                exact List.eq_nil_of_length_eq_zero this
              rw [hp', hpnil, List.cons_prefix_cons]
              exact ⟨rfl, List.nil_prefix⟩
          rcases hcase with ⟨htokp, hwb⟩ | hcf
          · have hmt : matchesAt r prev (c :: cs) = true :=
              matchesAt_of_literal hwb (by rw [htokp]; exact hps)
            rw [hmf] at hmt
            exact Bool.false_ne_true hmt
          · have hct := cs_of_pfx hp hps
            rw [hcf] at hct
            exact Bool.false_ne_true hct
        · intro k hk0 hkp hd
          have hne : p.drop k ≠ [] := by
            intro hcon
            have hl := congrArg List.length hcon
            rw [List.length_drop] at hl
            simp only [List.length_nil] at hl
            omega
          obtain ⟨u₂, hu₂, hu₂pfx⟩ := pfx_cons_elim hne hd
          have hdk1 : p.drop (k + 1) = u₂ := drop_succ_of_drop_eq_cons hu₂
          by_cases hkp1 : k + 1 < p.length
          · have h1 : p.drop (k + 1) <+: cs :=
              ihQ (k + 1) (Nat.succ_pos k) hkp1 (by rw [hdk1]; exact hu₂pfx)
            rw [hu₂, List.cons_prefix_cons]
            refine ⟨rfl, ?_⟩
            rwa [hdk1] at h1
          · have hu₂nil : u₂ = [] := by
              rw [← hdk1]
              exact drop_nil_of_le (by omega)
            rw [hu₂, hu₂nil, List.cons_prefix_cons]
            exact ⟨rfl, List.nil_prefix⟩

/-! ### Occurrences of a protected text are never lost

`subFuel_count` shows that one scan of a rule `r` that is `SafeFor t`
cannot decrease the number of occurrences of `t`.  A matched span either
cannot overlap an occurrence of `t` at all, is blocked by one of its `\\b`
boundary tests, re-emits the overlap at the end of its replacement, or —
for `t`'s own pairing rule — re-emits `t` itself; all other characters
are copied.  The second conjunct carries the invariant for occurrences in
progress: a dangling tail of `t` at the head of the input (whose
preceding character, recorded in `prev`, is then the last character of
the consumed part of `t`) stays at the head of the output. -/

theorem co_append_eq (t x y : Str) :
    countOcc t (x ++ y) = countStart t x y + countOcc t y := by
  induction x with
  | nil => simp [countStart]
  | cons c x' ih =>
    simp only [List.cons_append, List.append_eq, countOcc, countStart, ih]
    omega

theorem countStart_eq_zero {t y : Str} :
    ∀ (x : Str), (∀ i, i < x.length → ¬ (t <+: (x.drop i ++ y))) →
      countStart t x y = 0 := by
  intro x
  induction x with
  | nil => intro _; rfl
  | cons c x' ih =>
    intro h
    rw [countStart]
    have h0 : t.isPrefixOf ((c :: x') ++ y) = false := by
      rw [Bool.eq_false_iff]
      intro hcon
      exact h 0 (Nat.succ_pos _) (by simpa using List.isPrefixOf_iff_prefix.mp hcon)
    rw [h0, if_neg (by simp), Nat.zero_add]
    exact ih (fun i hi hcon => h (i + 1) (by simpa using Nat.succ_lt_succ hi)
      (by rwa [List.drop_succ_cons]))

theorem countStart_le_one {t y : Str} :
    ∀ (x : Str) (i₀ : Nat), (∀ i, i < x.length → t <+: (x.drop i ++ y) → i = i₀) →
      countStart t x y ≤ 1 := by
  intro x
  induction x with
  | nil => intro i₀ _; exact Nat.zero_le 1
  | cons c x' ih =>
    intro i₀ h
    rw [countStart]
    by_cases h0 : t.isPrefixOf ((c :: x') ++ y) = true
    · have hz : countStart t x' y = 0 := by
        apply countStart_eq_zero
        intro i hi hcon
        have hi0 : 0 = i₀ := h 0 (Nat.succ_pos _)
          (by simpa using List.isPrefixOf_iff_prefix.mp h0)
        have hii : i + 1 = i₀ := h (i + 1) (by simpa using Nat.succ_lt_succ hi)
          (by rwa [List.drop_succ_cons])
        omega
      rw [h0, if_pos rfl, hz]
    · have h0' : t.isPrefixOf ((c :: x') ++ y) = false := Bool.eq_false_iff.mpr h0
      rw [h0', if_neg (by simp), Nat.zero_add]
      refine ih (i₀ - 1) (fun i hi hcon => ?_)
      have := h (i + 1) (by simpa using Nat.succ_lt_succ hi)
        (by rwa [List.drop_succ_cons])
      omega

theorem countStart_ge_one {t y : Str} :
    ∀ (x : Str) (i₀ : Nat), i₀ < x.length → t <+: (x.drop i₀ ++ y) →
      1 ≤ countStart t x y := by
  intro x
  induction x with
  | nil =>
    intro i₀ h _
    simp at h
  | cons c x' ih =>
    intro i₀ hlt hocc
    rw [countStart]
    cases i₀ with
    | zero =>
      have h0 : t.isPrefixOf ((c :: x') ++ y) = true :=
        List.isPrefixOf_iff_prefix.mpr (by simpa using hocc)
      rw [h0, if_pos rfl]
      exact Nat.le_add_right 1 _
    | succ j =>
      have h1 := ih j (by simpa using Nat.lt_of_succ_lt_succ hlt)
        (by rwa [List.drop_succ_cons] at hocc)
      exact h1.trans (Nat.le_add_left _ _)

theorem matchesAt_prev_boundary {r : Rule} {prev : Option Char} {s : Str}
    (h : matchesAt r prev s = true) (hwb : r.wb = true) :
    boundaryOk prev = true := by
  rw [matchesAt, hwb, Bool.and_eq_true] at h
  have h2 := h.2
  rw [Bool.not_true, Bool.false_or, Bool.and_eq_true] at h2
  exact h2.1

theorem pfx_cons_target {t : Str} {c : Char} {u : Str}
    (h : (c :: u) <+: t) : ∃ t', t = c :: t' ∧ u <+: t' := by
  cases t with
  | nil => exact absurd (List.prefix_nil.mp h) (List.cons_ne_nil c u)
  | cons d t' =>
    rw [List.cons_prefix_cons] at h
    exact ⟨t', by rw [h.1], h.2⟩

theorem subFuel_count (t : Str) (r : Rule) (ht : t ≠ []) (htok : r.tok ≠ [])
    (hsafe : SafeFor t r) :
    ∀ (fuel : Nat) (prev : Option Char) (s : Str), s.length ≤ fuel →
      countOcc t s ≤ countOcc t (subFuel r fuel prev s) ∧
      (∀ k, 0 < k → (t.drop k) <+: s → prev = (t.take k).getLast? →
        (t.drop k) <+: subFuel r fuel prev s) := by
  intro fuel
  induction fuel with
  | zero =>
    intro prev s hlen
    have hs : s = [] := List.eq_nil_of_length_eq_zero (Nat.le_zero.mp hlen)
    subst hs
    exact ⟨Nat.le_refl _, fun k _ hd _ => hd⟩
  | succ fuel ih =>
    intro prev s hlen
    cases s with
    | nil => exact ⟨Nat.le_refl _, fun k _ hd _ => hd⟩
    | cons c cs =>
      by_cases hm : matchesAt r prev (c :: cs) = true
      · -- a match: the span `r.tok` is replaced by `r.rep`
        obtain ⟨s₂, hs₂⟩ := matchesAt_pfx hm
        have hdrop : (c :: cs).drop r.tok.length = s₂ := by
          rw [← hs₂, List.drop_left]
        have htokpos : 0 < r.tok.length := List.length_pos.mpr htok
        have hlen2 : s₂.length ≤ fuel := by
          have hl : (c :: cs).length = r.tok.length + s₂.length := by
            rw [← hs₂, List.length_append]
          omega
        obtain ⟨ihC, ihQ⟩ := ih r.tok.getLast? s₂ hlen2
        rw [subFuel_step_match (Nat.le_add_left 1 fuel) (List.cons_ne_nil c cs) hm,
          Nat.add_sub_cancel, hdrop]
        rcases hsafe with ⟨hteq, hrept, hunb⟩ | ⟨hne, hother, hq⟩
        · -- the rule's own token: the matched span is exactly `t`
          have hcs : c :: cs = t ++ s₂ := by rw [← hs₂, hteq]
          have hrepne : r.rep ≠ [] := hrept.ne_nil ht
          constructor
          · rw [hcs, co_append_eq, co_append_eq]
            refine Nat.add_le_add
              (Nat.le_trans (countStart_le_one t 0 ?_)
                (countStart_ge_one r.rep 0 ?_ ?_)) ihC
            · intro i hi hocc
              by_contra hne0
              have hipos : 0 < i := Nat.pos_of_ne_zero hne0
              rcases pfx_append_split hocc with h1 | ⟨h2, _⟩
              · have hl := h1.length_le
                rw [List.length_drop] at hl
                have hl2 := List.length_pos.mpr ht
                omega
              · exact absurd h2 (hunb i hi hipos)
            · exact List.length_pos.mpr hrepne
            · rw [List.drop_zero]
              exact pfx_extend hrept _
          · intro k hk0 hd _
            by_cases hkl : k < t.length
            · rw [hcs] at hd
              rcases pfx_append_split hd with h1 | ⟨h2, _⟩
              · exact absurd h1 (hunb k hkl hk0)
              · have hl := h2.length_le
                rw [List.length_drop] at hl
                have hl2 := List.length_pos.mpr ht
                omega
            · rw [drop_nil_of_le (Nat.le_of_not_lt hkl)]
              exact List.nil_prefix
        · -- a different token
          constructor
          · rw [← hs₂, co_append_eq, co_append_eq]
            refine Nat.add_le_add ?_ ihC
            by_cases hex : ∃ i, i < r.tok.length ∧ t <+: (r.tok.drop i ++ s₂)
            · obtain ⟨i₀, hi₀, hocc⟩ := hex
              have hD3 : 0 < i₀ ∧ (r.tok.drop i₀) <+: t ∧
                  r.tok.length - i₀ < t.length ∧ (r.tok.drop i₀) <:+ r.rep ∧
                  ∀ j, j < r.tok.length →
                    (j = i₀ ∨ (¬(t <+: (r.tok.drop j)) ∧ ¬((r.tok.drop j) <+: t))) := by
                rcases hother i₀ hi₀ with ⟨h1, h2⟩ | ⟨hpfx, hlen3, hwb, hwc⟩ | hd3
                · rcases pfx_append_split hocc with ha | ⟨hb, _⟩
                  · exact absurd ha h1
                  · exact absurd hb h2
                · -- blocked by the trailing boundary: impossible since the
                  -- match did fire
                  exfalso
                  rcases pfx_append_split hocc with ha | ⟨hb, htail⟩
                  · have hl := ha.length_le
                    rw [List.length_drop] at hl
                    omega
                  · rw [List.length_drop] at htail
                    cases htl : t.drop (r.tok.length - i₀) with
                    | nil =>
                      have hl := congrArg List.length htl
                      rw [List.length_drop] at hl
                      simp only [List.length_nil] at hl
                      omega
                    | cons d tl =>
                      rw [htl] at htail
                      obtain ⟨s₂', hs₂', _⟩ := pfx_cons_target htail
                      have hb2 := matchesAt_next_boundary hm hwb
                      rw [hdrop, hs₂', List.head?_cons] at hb2
                      rw [htl] at hwc
                      simp only [List.headD_cons] at hwc
                      rw [show boundaryOk (some d) = !isWordChar d from rfl, hwc] at hb2
                      exact Bool.false_ne_true hb2
                · exact hd3
              obtain ⟨hi₀pos, hpfx, hlen3, hsfx, huniq⟩ := hD3
              have hone : countStart t r.tok s₂ ≤ 1 := by
                refine countStart_le_one r.tok i₀ (fun i hi hPi => ?_)
                rcases huniq i hi with heq | hdis
                · exact heq
                · exfalso
                  rcases pfx_append_split hPi with ha | ⟨hb, _⟩
                  · exact hdis.1 ha
                  · exact hdis.2 hb
              refine hone.trans ?_
              rcases pfx_append_split hocc with ha | ⟨hb, htail⟩
              · have hl := ha.length_le
                rw [List.length_drop] at hl
                omega
              · rw [List.length_drop] at htail
                have htake : t.take (r.tok.length - i₀) = r.tok.drop i₀ := by
                  have hpt := List.prefix_iff_eq_take.mp hpfx
                  rw [List.length_drop] at hpt
                  exact hpt.symm
                have hprevreq : r.tok.getLast? = (t.take (r.tok.length - i₀)).getLast? := by
                  rw [htake, List.getLast?_drop, if_neg (by omega)]
                have htailG := ihQ (r.tok.length - i₀) (by omega) htail hprevreq
                obtain ⟨rep₀, hrep₀⟩ := hsfx
                refine countStart_ge_one r.rep rep₀.length ?_ ?_
                · rw [← hrep₀, List.length_append, List.length_drop]
                  omega
                · have hdropr : r.rep.drop rep₀.length = r.tok.drop i₀ := by
                    rw [← hrep₀, List.drop_left]
                  rw [hdropr]
                  have ht_split :
                      (r.tok.drop i₀) ++ t.drop (r.tok.length - i₀) = t := by
                    rw [← htake, List.take_append_drop]
                  have hx : (r.tok.drop i₀) ++ t.drop (r.tok.length - i₀) <+:
                      (r.tok.drop i₀) ++ subFuel r fuel r.tok.getLast? s₂ :=
                    (List.prefix_append_right_inj _).mpr htailG
                  rwa [ht_split] at hx
            · push_neg at hex
              have h0 : countStart t r.tok s₂ = 0 := countStart_eq_zero r.tok hex
              rw [h0]
              exact Nat.zero_le _
          · intro k hk0 hd hprev
            by_cases hkl : k < t.length
            · rw [← hs₂] at hd
              rcases hq k hkl hk0 with ⟨h1, h2⟩ | ⟨hwb, hwc⟩
              · rcases pfx_append_split hd with ha | ⟨hb, _⟩
                · exact absurd ha h1
                · exact absurd hb h2
              · exfalso
                have hbp := matchesAt_prev_boundary hm hwb
                rw [hprev] at hbp
                cases hgl : (t.take k).getLast? with
                | none =>
                  rw [List.getLast?_eq_none_iff] at hgl
                  rcases List.take_eq_nil_iff.mp hgl with h | h
                  · omega
                  · exact ht h
                | some d =>
                  rw [hgl] at hbp
                  rw [List.getLastD_eq_getLast?, hgl] at hwc
                  simp only [Option.getD_some] at hwc
                  rw [show boundaryOk (some d) = !isWordChar d from rfl, hwc] at hbp
                  exact Bool.false_ne_true hbp
            · rw [drop_nil_of_le (Nat.le_of_not_lt hkl)]
              exact List.nil_prefix
      · -- no match: the character is copied
        have hmf : matchesAt r prev (c :: cs) = false := Bool.eq_false_iff.mpr hm
        have hlen2 : cs.length ≤ fuel := by
          rw [List.length_cons] at hlen
          omega
        obtain ⟨ihC, ihQ⟩ := ih (some c) cs hlen2
        rw [subFuel_step_skip (Nat.le_add_left 1 fuel) hmf, Nat.add_sub_cancel]
        constructor
        · rw [countOcc, countOcc]
          have hind : (if t.isPrefixOf (c :: cs) then 1 else 0)
              ≤ (if t.isPrefixOf (c :: subFuel r fuel (some c) cs) then 1 else 0) := by
            by_cases hpf : t.isPrefixOf (c :: cs) = true
            · have hpfx : t <+: c :: cs := List.isPrefixOf_iff_prefix.mp hpf
              obtain ⟨t', ht', ht'pfx⟩ := pfx_cons_elim ht hpfx
              have hdrop1 : t.drop 1 = t' := by
                rw [ht']
                rfl
              have hprev1 : some c = (t.take 1).getLast? := by
                rw [ht']
                rfl
              have h2 : t.drop 1 <+: subFuel r fuel (some c) cs :=
                ihQ 1 Nat.one_pos (by rw [hdrop1]; exact ht'pfx) hprev1
              have h3 : t <+: c :: subFuel r fuel (some c) cs := by
                rw [ht', List.cons_prefix_cons]
                exact ⟨rfl, by rwa [hdrop1] at h2⟩
              simp [hpf, List.isPrefixOf_iff_prefix.mpr h3]
            · simp [hpf]
          exact Nat.add_le_add hind ihC
        · intro k hk0 hd _
          cases hdk : t.drop k with
          | nil => exact List.nil_prefix
          | cons d u₂ =>
            rw [hdk, List.cons_prefix_cons] at hd
            have hdk1 : t.drop (k + 1) = u₂ := drop_succ_of_drop_eq_cons hdk
            have hprev2 : some d = (t.take (k + 1)).getLast? := by
              rw [List.take_add, hdk]
              simp [List.getLast?_concat]
            have h2 : t.drop (k + 1) <+: subFuel r fuel (some c) cs :=
              ihQ (k + 1) (Nat.succ_pos k) (by rw [hdk1]; exact hd.2)
                (by rw [← hd.1]; exact hprev2)
            rw [List.cons_prefix_cons]
            exact ⟨hd.1, by rwa [hdk1] at h2⟩

/-- One pass of a safe rule does not decrease the occurrence count. -/
theorem subst_count (t : Str) (r : Rule) (ht : t ≠ []) (htok : r.tok ≠ [])
    (hsafe : SafeFor t r) (s : Str) :
    countOcc t s ≤ countOcc t (subst r s) :=
  (subFuel_count t r ht htok hsafe s.length none s (Nat.le_refl _)).1

theorem foldl_count (t : Str) :
    ∀ (rs : List Rule), (∀ r ∈ rs, r.tok ≠ [] ∧ SafeFor t r) → t ≠ [] →
      ∀ s : Str, countOcc t s ≤ countOcc t (rs.foldl (fun acc r => subst r acc) s) := by
  intro rs
  induction rs with
  | nil =>
    intro _ _ s
    exact Nat.le_refl _
  | cons r rs ih =>
    intro h ht s
    rw [List.foldl_cons]
    have hr := h r (List.mem_cons_self r rs)
    exact (subst_count t r ht hr.1 hr.2 s).trans
      (ih (fun r' hr' => h r' (List.mem_cons_of_mem r hr')) ht _)

/-- The whole pipeline does not decrease the occurrence count of a text
that is safe for every rule. -/
theorem transform_count (t : Str) (ht : t ≠ [])
    (h : ∀ r ∈ replacements ++ [finalRule], r.tok ≠ [] ∧ SafeFor t r) (s : Str) :
    countOcc t s ≤ countOcc t (transform s) := by
  rw [transform]
  refine (foldl_count t replacements
    (fun r hr => h r (List.mem_append_left _ hr)) ht s).trans ?_
  have hf := h finalRule (List.mem_append_right _ (List.mem_singleton.mpr rfl))
  exact subst_count t finalRule ht hf.1 hf.2 _

/-- One pass of the rule whose own (boundary-free) token is `p` leaves no
occurrence of `p` in the output. -/
theorem subst_abs_self (p : Str) (r : Rule) (hp : p ≠ []) (htok : r.tok ≠ [])
    (habs : AbsOk p r) (hself : r.tok = p) (hwb : r.wb = false) (s : Str) :
    containsSub p (subst r s) = false :=
  (subFuel_abs p r hp htok habs s.length none s (Nat.le_refl _) (Or.inl ⟨hself, hwb⟩)).1

/-- One pass of a rule satisfying `AbsOk` cannot introduce an occurrence
of `p` into a text that has none. -/
theorem subst_abs_preserve (p : Str) (r : Rule) (hp : p ≠ []) (htok : r.tok ≠ [])
    (habs : AbsOk p r) (s : Str) (h : containsSub p s = false) :
    containsSub p (subst r s) = false :=
  (subFuel_abs p r hp htok habs s.length none s (Nat.le_refl _) (Or.inr h)).1

/-! ### Trailing-boundary occurrences survive a pass of a disjoint rule

`subFuel_countTB` tracks the occurrences of `u` that are followed by a
word boundary.  Under `SafeTB u r` a match of `r.tok` can neither overlap
such an occurrence nor begin at its boundary character (the token starts
with a word character, the boundary character is not one), so the
occurrence and its boundary character are copied verbatim.  The second
conjunct carries the dangling-tail invariant together with the boundary
after the tail. -/

theorem subFuel_countTB (u : Str) (r : Rule) (hu : u ≠ []) (htok : r.tok ≠ [])
    (hsafe : SafeTB u r) :
    ∀ (fuel : Nat) (prev : Option Char) (s : Str), s.length ≤ fuel →
      countTB u s ≤ countTB u (subFuel r fuel prev s) ∧
      (∀ k, 0 < k → k ≤ u.length → (u.drop k) <+: s →
        boundaryOk ((s.drop (u.length - k)).head?) = true →
        (u.drop k) <+: subFuel r fuel prev s ∧
        boundaryOk (((subFuel r fuel prev s).drop (u.length - k)).head?) = true) := by
  intro fuel
  induction fuel with
  | zero =>
    intro prev s hlen
    have hs : s = [] := List.eq_nil_of_length_eq_zero (Nat.le_zero.mp hlen)
    subst hs
    exact ⟨Nat.le_refl _, fun k _ _ hd hb => ⟨hd, hb⟩⟩
  | succ fuel ih =>
    intro prev s hlen
    cases s with
    | nil => exact ⟨Nat.le_refl _, fun k _ _ hd hb => ⟨hd, hb⟩⟩
    | cons c cs =>
      by_cases hm : matchesAt r prev (c :: cs) = true
      · -- a match: the span `r.tok` cannot touch any boundary-closed
        -- occurrence of `u`, so all of them sit in the remaining text
        obtain ⟨s₂, hs₂⟩ := matchesAt_pfx hm
        have hdrop : (c :: cs).drop r.tok.length = s₂ := by
          rw [← hs₂, List.drop_left]
        have htokpos : 0 < r.tok.length := List.length_pos.mpr htok
        have hlen2 : s₂.length ≤ fuel := by
          have hl : (c :: cs).length = r.tok.length + s₂.length := by
            rw [← hs₂, List.length_append]
          omega
        obtain ⟨ihC, ihQ⟩ := ih r.tok.getLast? s₂ hlen2
        rw [subFuel_step_match (Nat.le_add_left 1 fuel) (List.cons_ne_nil c cs) hm,
          Nat.add_sub_cancel, hdrop]
        constructor
        · have hskip : countTB u (c :: cs) = countTB u s₂ := by
            rw [← hs₂]
            refine tb_skip r.tok s₂ (fun i hi hcon => ?_)
            rcases pfx_append_split hcon with ha | ⟨hb, _⟩
            · exact (hsafe.1 i hi).1 ha
            · exact (hsafe.1 i hi).2 hb
          rw [hskip]
          exact ihC.trans (tb_append_right_le u r.rep _)
        · intro k hk0 hku hd hb
          exfalso
          by_cases hkl : k < u.length
          · rw [← hs₂] at hd
            rcases pfx_append_split hd with ha | ⟨hb2, _⟩
            · exact (hsafe.2.1 k hkl hk0).1 ha
            · exact (hsafe.2.1 k hkl hk0).2 hb2
          · have hkeq : u.length - k = 0 := by omega
            rw [hkeq, List.drop_zero, List.head?_cons] at hb
            have htokpfx : r.tok <+: c :: cs := matchesAt_pfx hm
            have hwc := hsafe.2.2
            cases htokc : r.tok with
            | nil => exact htok htokc
            | cons c₀ tok' =>
              rw [htokc, List.cons_prefix_cons] at htokpfx
              rw [htokc] at hwc
              simp only [List.headD_cons] at hwc
              rw [← htokpfx.1] at hb
              rw [show boundaryOk (some c₀) = !isWordChar c₀ from rfl, hwc] at hb
              exact Bool.false_ne_true hb
      · -- no match: the character is copied
        have hmf : matchesAt r prev (c :: cs) = false := Bool.eq_false_iff.mpr hm
        have hlen2 : cs.length ≤ fuel := by
          rw [List.length_cons] at hlen
          omega
        obtain ⟨ihC, ihQ⟩ := ih (some c) cs hlen2
        rw [subFuel_step_skip (Nat.le_add_left 1 fuel) hmf, Nat.add_sub_cancel]
        have hupos : 0 < u.length := List.length_pos.mpr hu
        constructor
        · rw [countTB, countTB]
          by_cases hpf : (u.isPrefixOf (c :: cs)
              && boundaryOk (((c :: cs).drop u.length).head?)) = true
          · have hpfB := hpf
            rw [Bool.and_eq_true] at hpf
            obtain ⟨hpf1, hpf2⟩ := hpf
            have hpfxu : u <+: c :: cs := List.isPrefixOf_iff_prefix.mp hpf1
            obtain ⟨u', hu', hu'pfx⟩ := pfx_cons_elim hu hpfxu
            have hdrop1 : u.drop 1 = u' := by
              rw [hu']
              rfl
            have hulen : u.length = (u.length - 1) + 1 := by omega
            have hb1 : boundaryOk ((cs.drop (u.length - 1)).head?) = true := by
              rw [hulen, List.drop_succ_cons] at hpf2
              exact hpf2
            obtain ⟨hq1, hq2⟩ := ihQ 1 Nat.one_pos hupos
              (by rw [hdrop1]; exact hu'pfx) hb1
            have hcout : (u.isPrefixOf (c :: subFuel r fuel (some c) cs)
                && boundaryOk (((c :: subFuel r fuel (some c) cs).drop
                  u.length).head?)) = true := by
              rw [Bool.and_eq_true]
              constructor
              · refine List.isPrefixOf_iff_prefix.mpr ?_
                rw [hu', List.cons_prefix_cons]
                exact ⟨rfl, by rwa [hdrop1] at hq1⟩
              · rw [hulen, List.drop_succ_cons]
                exact hq2
            rw [hpfB, if_pos rfl, hcout, if_pos rfl]
            exact Nat.add_le_add_left ihC 1
          · have hpf' := Bool.eq_false_iff.mpr hpf
            rw [hpf', if_neg (by simp), Nat.zero_add]
            exact ihC.trans (Nat.le_add_left _ _)
        · intro k hk0 hku hd hb
          by_cases hkl : k < u.length
          · cases hdk : u.drop k with
            | nil =>
              exfalso
              have hl := congrArg List.length hdk
              rw [List.length_drop] at hl
              simp only [List.length_nil] at hl
              omega
            | cons d₀ u₂ =>
              rw [hdk, List.cons_prefix_cons] at hd
              have hdk1 : u.drop (k + 1) = u₂ := drop_succ_of_drop_eq_cons hdk
              have hshift : u.length - k = (u.length - (k + 1)) + 1 := by omega
              have hb1 : boundaryOk ((cs.drop (u.length - (k + 1))).head?) = true := by
                rw [hshift, List.drop_succ_cons] at hb
                exact hb
              obtain ⟨hq1, hq2⟩ := ihQ (k + 1) (Nat.succ_pos k) (by omega)
                (by rw [hdk1]; exact hd.2) hb1
              constructor
              · rw [List.cons_prefix_cons]
                exact ⟨hd.1, by rwa [hdk1] at hq1⟩
              · rw [hshift, List.drop_succ_cons]
                exact hq2
          · have hdknil : u.drop k = [] := drop_nil_of_le (by omega)
            have hkeq : u.length - k = 0 := by omega
            rw [hkeq, List.drop_zero, List.head?_cons] at hb
            constructor
            · rw [hdknil]
              exact List.nil_prefix
            · rw [hkeq, List.drop_zero, List.head?_cons]
              exact hb

/-- One pass of a rule that is `SafeTB` for `u` does not decrease the
number of occurrences of `u` followed by a word boundary. -/
theorem subst_countTB (u : Str) (r : Rule) (hu : u ≠ []) (htok : r.tok ≠ [])
    (hsafe : SafeTB u r) (s : Str) :
    countTB u s ≤ countTB u (subst r s) :=
  (subFuel_countTB u r hu htok hsafe s.length none s (Nat.le_refl _)).1

/-! ### The pairing rule fires inside a `dark:`-prefixed token

For a word-bounded rule `r` and a prefix `d` ending in a non-word
character, every occurrence of `u = d ++ r.tok` followed by a word
boundary forces a match of `r` at offset `d.length` into the occurrence:
the last character of `d` supplies the leading `\b`, the occurrence's own
trailing boundary the trailing one.  The scan copies `d` and then emits
`r.rep`, producing an occurrence of `pairT = d ++ r.rep` in the output.
The hypotheses `hin`/`hout` state that no other match can overlap the
occurrence before the fire. -/

theorem subFuel_fire (u d : Str) (r : Rule) (pairT : Str)
    (hd : d ≠ []) (htok : r.tok ≠ [])
    (hu : u = d ++ r.tok) (hpair : pairT = d ++ r.rep) (hwb : r.wb = true)
    (hbd : boundaryOk d.getLast? = true)
    (hin : ∀ k, k < u.length → 0 < k → k ≠ d.length →
      ¬((u.drop k) <+: r.tok) ∧ ¬(r.tok <+: (u.drop k)))
    (hout : ∀ i, i < r.tok.length → ¬(u <+: (r.tok.drop i)) ∧ ¬((r.tok.drop i) <+: u)) :
    ∀ (fuel : Nat) (prev : Option Char) (s : Str), s.length ≤ fuel →
      countTB u s ≤ countOcc pairT (subFuel r fuel prev s) ∧
      (∀ k, 0 < k → k ≤ d.length → (u.drop k) <+: s →
        boundaryOk ((s.drop (u.length - k)).head?) = true →
        prev = (u.take k).getLast? →
        (pairT.drop k) <+: subFuel r fuel prev s) := by
  have hdu : d.length < u.length := by
    rw [hu, List.length_append]
    have := List.length_pos.mpr htok
    omega
  have hune : u ≠ [] := List.length_pos.mp (by omega)
  intro fuel
  induction fuel with
  | zero =>
    intro prev s hlen
    have hs : s = [] := List.eq_nil_of_length_eq_zero (Nat.le_zero.mp hlen)
    subst hs
    refine ⟨Nat.zero_le _, fun k hk0 hkd hdp _ _ => ?_⟩
    exfalso
    rw [List.prefix_nil] at hdp
    have hl := congrArg List.length hdp
    rw [List.length_drop] at hl
    simp only [List.length_nil] at hl
    omega
  | succ fuel ih =>
    intro prev s hlen
    cases s with
    | nil =>
      refine ⟨Nat.zero_le _, fun k hk0 hkd hdp _ _ => ?_⟩
      exfalso
      rw [List.prefix_nil] at hdp
      have hl := congrArg List.length hdp
      rw [List.length_drop] at hl
      simp only [List.length_nil] at hl
      omega
    | cons c cs =>
      by_cases hm : matchesAt r prev (c :: cs) = true
      · -- a match elsewhere: no boundary-closed occurrence of `u` starts
        -- inside the span, and a dangling occurrence would contradict `hin`
        obtain ⟨s₂, hs₂⟩ := matchesAt_pfx hm
        have hdrop : (c :: cs).drop r.tok.length = s₂ := by
          rw [← hs₂, List.drop_left]
        have htokpos : 0 < r.tok.length := List.length_pos.mpr htok
        have hlen2 : s₂.length ≤ fuel := by
          have hl : (c :: cs).length = r.tok.length + s₂.length := by
            rw [← hs₂, List.length_append]
          omega
        obtain ⟨ihC, ihQ⟩ := ih r.tok.getLast? s₂ hlen2
        rw [subFuel_step_match (Nat.le_add_left 1 fuel) (List.cons_ne_nil c cs) hm,
          Nat.add_sub_cancel, hdrop]
        constructor
        · have hskip : countTB u (c :: cs) = countTB u s₂ := by
            rw [← hs₂]
            refine tb_skip r.tok s₂ (fun i hi hcon => ?_)
            rcases pfx_append_split hcon with ha | ⟨hb, _⟩
            · exact (hout i hi).1 ha
            · exact (hout i hi).2 hb
          rw [hskip]
          exact ihC.trans (co_append_right_le pairT r.rep _)
        · intro k hk0 hkd hdp hb hprev
          rcases Nat.lt_or_eq_of_le hkd with hklt | hkeq
          · exfalso
            rw [← hs₂] at hdp
            rcases pfx_append_split hdp with ha | ⟨hb2, _⟩
            · exact (hin k (by omega) hk0 (by omega)).1 ha
            · exact (hin k (by omega) hk0 (by omega)).2 hb2
          · -- at offset `d.length` the match that fired is the pairing
            -- match itself: the output begins with `r.rep = pairT.drop k`
            have hrep : pairT.drop k = r.rep := by
              rw [hkeq, hpair]
              exact List.drop_left d r.rep
            rw [hrep]
            exact List.prefix_append r.rep _
      · -- no match: the character is copied
        have hmf : matchesAt r prev (c :: cs) = false := Bool.eq_false_iff.mpr hm
        have hlen2 : cs.length ≤ fuel := by
          rw [List.length_cons] at hlen
          omega
        obtain ⟨ihC, ihQ⟩ := ih (some c) cs hlen2
        rw [subFuel_step_skip (Nat.le_add_left 1 fuel) hmf, Nat.add_sub_cancel]
        have hdpos : 0 < d.length := List.length_pos.mpr hd
        constructor
        · rw [countTB, countOcc]
          by_cases hpf : (u.isPrefixOf (c :: cs)
              && boundaryOk (((c :: cs).drop u.length).head?)) = true
          · have hpfB := hpf
            rw [Bool.and_eq_true] at hpf
            obtain ⟨hpf1, hpf2⟩ := hpf
            have hpfxu : u <+: c :: cs := List.isPrefixOf_iff_prefix.mp hpf1
            obtain ⟨u', hu', hu'pfx⟩ := pfx_cons_elim hune hpfxu
            have hdrop1 : u.drop 1 = u' := by
              rw [hu']
              rfl
            have hprev1 : some c = (u.take 1).getLast? := by
              rw [hu']
              rfl
            have hulen : u.length = (u.length - 1) + 1 := by omega
            have hb1 : boundaryOk ((cs.drop (u.length - 1)).head?) = true := by
              rw [hulen, List.drop_succ_cons] at hpf2
              exact hpf2
            have hq1 := ihQ 1 Nat.one_pos hdpos
              (by rw [hdrop1]; exact hu'pfx) hb1 hprev1
            have hpairc : pairT <+: c :: subFuel r fuel (some c) cs := by
              cases hdc : d with
              | nil => exact absurd hdc hd
              | cons c₀ d' =>
                have hu2 : u = c₀ :: (d' ++ r.tok) := by
                  rw [hu, hdc]
                  rfl
                have hc0 : c₀ = c := by
                  have h := hu'
                  rw [hu2] at h
                  exact (List.cons_eq_cons.mp h).1
                have hp2 : pairT = c₀ :: (d' ++ r.rep) := by
                  rw [hpair, hdc]
                  rfl
                have hpd1 : pairT.drop 1 = d' ++ r.rep := by
                  rw [hp2]
                  rfl
                rw [hp2, hc0, List.cons_prefix_cons]
                refine ⟨rfl, ?_⟩
                rw [← hpd1]
                exact hq1
            rw [hpfB, if_pos rfl, List.isPrefixOf_iff_prefix.mpr hpairc, if_pos rfl]
            exact Nat.add_le_add_left ihC 1
          · have hpf' := Bool.eq_false_iff.mpr hpf
            rw [hpf', if_neg (by simp), Nat.zero_add]
            exact ihC.trans (Nat.le_add_left _ _)
        · intro k hk0 hkd hdp hb hprev
          rcases Nat.lt_or_eq_of_le hkd with hklt | hkeq
          · -- still inside the copied prefix `d`
            cases hdk : u.drop k with
            | nil =>
              exfalso
              have hl := congrArg List.length hdk
              rw [List.length_drop] at hl
              simp only [List.length_nil] at hl
              omega
            | cons d₀ u₂ =>
              rw [hdk, List.cons_prefix_cons] at hdp
              have hdk1 : u.drop (k + 1) = u₂ := drop_succ_of_drop_eq_cons hdk
              have hshift : u.length - k = (u.length - (k + 1)) + 1 := by omega
              have hb1 : boundaryOk ((cs.drop (u.length - (k + 1))).head?) = true := by
                rw [hshift, List.drop_succ_cons] at hb
                exact hb
              have hprev2 : some d₀ = (u.take (k + 1)).getLast? := by
                rw [List.take_add, hdk]
                simp [List.getLast?_concat]
              have hq1 := ihQ (k + 1) (Nat.succ_pos k) (by omega)
                (by rw [hdk1]; exact hdp.2) hb1 (by rw [← hdp.1]; exact hprev2)
              have hud : u.drop k = d.drop k ++ r.tok := by
                rw [hu, List.drop_append_eq_append_drop,
                  show k - d.length = 0 from by omega, List.drop_zero]
              have hpd : pairT.drop k = d.drop k ++ r.rep := by
                rw [hpair, List.drop_append_eq_append_drop,
                  show k - d.length = 0 from by omega, List.drop_zero]
              cases hddk : d.drop k with
              | nil =>
                exfalso
                have hl := congrArg List.length hddk
                rw [List.length_drop] at hl
                simp only [List.length_nil] at hl
                omega
              | cons e dd =>
                rw [hddk, List.cons_append] at hud hpd
                have he : e = d₀ := (List.cons_eq_cons.mp (hud.symm.trans hdk)).1
                rw [he] at hpd
                have hpdk1 : pairT.drop (k + 1) = dd ++ r.rep :=
                  drop_succ_of_drop_eq_cons hpd
                rw [hpd, List.cons_prefix_cons]
                exact ⟨hdp.1, by rwa [hpdk1] at hq1⟩
          · -- at offset `d.length` the match must fire, contradicting the skip
            exfalso
            subst hkeq
            have hdpt : r.tok <+: c :: cs := by
              have hdt : u.drop d.length = r.tok := by
                rw [hu]
                exact List.drop_left d r.tok
              rwa [hdt] at hdp
            have hprevd : prev = d.getLast? := by
              rw [hprev, hu, List.take_left]
            have hblen : u.length - d.length = r.tok.length := by
              rw [hu, List.length_append]
              omega
            rw [hblen] at hb
            have hmt : matchesAt r prev (c :: cs) = true := by
              rw [matchesAt, hwb, List.isPrefixOf_iff_prefix.mpr hdpt, hprevd, hbd, hb]
              rfl
            exact hm hmt

/-- One pass of the pairing rule turns every boundary-closed occurrence of
`u = d ++ r.tok` into an occurrence of `pairT = d ++ r.rep`. -/
theorem subst_fire (u d : Str) (r : Rule) (pairT : Str)
    (hd : d ≠ []) (htok : r.tok ≠ [])
    (hu : u = d ++ r.tok) (hpair : pairT = d ++ r.rep) (hwb : r.wb = true)
    (hbd : boundaryOk d.getLast? = true)
    (hin : ∀ k, k < u.length → 0 < k → k ≠ d.length →
      ¬((u.drop k) <+: r.tok) ∧ ¬(r.tok <+: (u.drop k)))
    (hout : ∀ i, i < r.tok.length → ¬(u <+: (r.tok.drop i)) ∧ ¬((r.tok.drop i) <+: u))
    (s : Str) :
    countTB u s ≤ countOcc pairT (subst r s) :=
  (subFuel_fire u d r pairT hd htok hu hpair hwb hbd hin hout s.length none s
    (Nat.le_refl _)).1

/-! ### A text with no rule match is left unchanged -/

theorem subFuel_eq_of_hasMatch_eq_false (r : Rule) :
    ∀ (fuel : Nat) (prev : Option Char) (s : Str),
      hasMatch r fuel prev s = false → subFuel r fuel prev s = s := by
  intro fuel
  induction fuel with
  | zero => intro prev s _; rfl
  | succ n ih =>
    intro prev s h
    cases s with
    | nil => rfl
    | cons c cs =>
      rw [hasMatch, Bool.or_eq_false_iff] at h
      rw [subFuel, if_neg (by rw [h.1]; exact Bool.false_ne_true), ih _ _ h.2]

theorem subst_eq_of_not_fires (r : Rule) (s : Str) (h : ruleFires r s = false) :
    subst r s = s :=
  subFuel_eq_of_hasMatch_eq_false r s.length none s h

theorem foldl_subst_eq_of_not_fires (s : Str) :
    ∀ rs : List Rule, (∀ r ∈ rs, ruleFires r s = false) →
      rs.foldl (fun acc r => subst r acc) s = s := by
  intro rs
  induction rs with
  | nil => intro _; rfl
  | cons r rs ih =>
    intro h
    rw [List.foldl_cons, subst_eq_of_not_fires r s (h r (List.mem_cons_self r rs)),
      ih (fun r' hr' => h r' (List.mem_cons_of_mem r hr'))]

theorem transform_eq_of_matchesNone (s : Str) (h : matchesNone s = true) :
    transform s = s := by
  rw [matchesNone, List.all_eq_true] at h
  have hall : ∀ r ∈ replacements ++ [finalRule], ruleFires r s = false := by
    intro r hr
    have := h r hr
    rwa [Bool.not_eq_eq_eq_not, Bool.not_true] at this
  rw [transform,
    foldl_subst_eq_of_not_fires s replacements
      (fun r hr => hall r (List.mem_append_left _ hr)),
    subst_eq_of_not_fires finalRule s
      (hall finalRule (List.mem_append_right _ (List.mem_singleton.mpr rfl)))]

/-! ### Claim theorems: the rewrite pipeline on concrete inputs -/

/-- C1: the claim states that a second run of the transform changes
nothing.  The code violates it (and its own "fix potential duplicates if
run multiple times" dedup comment): for the input `bg-gray-100`, the first
run produces `bg-gray-100 dark:bg-gray-800`, and the second run appends a
second `dark:bg-gray-800` that no cleanup rule collapses, so the file is
rewritten and reported again on run 2. -/
theorem c1_second_run_changes :
    transform (transform (S "bg-gray-100")) ≠ transform (S "bg-gray-100") ∧
    transform (transform (S "bg-gray-100"))
      = S "bg-gray-100 dark:bg-gray-800 dark:bg-gray-800" ∧
    (update_file (transform (S "bg-gray-100"))).wrote = true := by
  refine ⟨by decide, by decide, by decide⟩

/-- C2: the claim states that after one run every light token is followed
by exactly one designated dark counterpart, never more than one.  The code
violates it: for the input `bg-gray-100 dark:bg-gray-800` (a pre-existing
dark variant, which the dedup comment says is handled), one run yields
`bg-gray-100 dark:bg-gray-800 dark:bg-gray-800` — the light token is
followed by two copies of its counterpart. -/
theorem c2_duplicate_counterpart :
    transform (S "bg-gray-100 dark:bg-gray-800")
      = S "bg-gray-100 dark:bg-gray-800 dark:bg-gray-800" ∧
    countOcc (S "dark:bg-gray-800") (transform (S "bg-gray-100 dark:bg-gray-800")) = 2 := by
  refine ⟨by decide, by decide⟩

/-- C3 counterexample: the claim states that `bg-white-ish` is left
unmodified.  It is not: `-` is not a word character, so `\b` matches
between `bg-white` and `-ish`, and the transform rewrites the text to
`bg-white dark:bg-black-ish`. -/
theorem c3_counterexample :
    transform (S "bg-white-ish") ≠ S "bg-white-ish" ∧
    transform (S "bg-white-ish") = S "bg-white dark:bg-black-ish" := by
  refine ⟨by decide, by decide⟩

/-- C3 amended: the rule does not match `bg-white` embedded in a longer
run of word characters — `bg-whiteish` is left unmodified and, for every
input text, its occurrence count never drops — but a hyphen is a `\b`
word boundary, so `bg-white-ish` is rewritten to
`bg-white dark:bg-black-ish`. -/
theorem c3_amended :
    (∀ s : Str,
      countOcc (S "bg-whiteish") s ≤ countOcc (S "bg-whiteish") (transform s)) ∧
    transform (S "bg-whiteish") = S "bg-whiteish" ∧
    transform (S "bg-white-ish") = S "bg-white dark:bg-black-ish" := by
  refine ⟨fun s => transform_count _ (by decide) (by decide) s, by decide, by decide⟩

/-- C10: the transform never deletes a light token: for each of the 11
light tokens, every rule of the pipeline either re-emits the token (its
own pairing rule) or can never overlap an occurrence of it, so the
occurrence count in the output is at least the count in the input, for
every input text. -/
theorem c10_light_token_never_deleted (t : Str) (ht : t ∈ lightTokens) (s : Str) :
    countOcc t s ≤ countOcc t (transform s) := by
  have hlt : lightTokens = [S "bg-white", S "bg-gray-50", S "bg-gray-100",
      S "text-gray-900", S "text-gray-800", S "text-gray-700", S "text-gray-600",
      S "text-gray-500", S "border-gray-200", S "border-gray-300",
      S "divide-gray-200"] := rfl
  rw [hlt] at ht
  simp only [List.mem_cons, List.not_mem_nil, or_false] at ht
  rcases ht with rfl | rfl | rfl | rfl | rfl | rfl | rfl | rfl | rfl | rfl | rfl
  all_goals exact transform_count _ (by decide) (by decide) s

/-- C10 witness: `bg-white` is a light token, and a text with one
occurrence keeps at least one occurrence after the transform. -/
theorem c10_witness :
    (S "bg-white") ∈ lightTokens ∧
    countOcc (S "bg-white") (S "a bg-white b")
      ≤ countOcc (S "bg-white") (transform (S "a bg-white b")) :=
  ⟨by decide,
    c10_light_token_never_deleted (S "bg-white") (by decide) (S "a bg-white b")⟩

/-- C4 counterexample: the claim states that for every input containing
the adjacent pair `dark:bg-gray-800 dark:bg-black` one run reduces that
pair to `dark:bg-black`.  For the input
`dark:bg-gray-800 dark:bg-gray-800 dark:bg-gray-800 dark:bg-black` the two
passes of the collision rule each re-create the pair one token to the
left, and the run ends with the pair still present in the output. -/
theorem c4_counterexample :
    transform (S "dark:bg-gray-800 dark:bg-gray-800 dark:bg-gray-800 dark:bg-black")
      = S "dark:bg-gray-800 dark:bg-black" ∧
    containsSub (S "dark:bg-gray-800 dark:bg-black")
      (transform (S "dark:bg-gray-800 dark:bg-gray-800 dark:bg-gray-800 dark:bg-black"))
      = true := by
  refine ⟨by decide, by decide⟩

/-- C4 amended: on the spec's cited collision inputs — the adjacent pair
standing by itself, in either order — one run does reduce the pair to the
single canonical token `dark:bg-black`; the reduction is only guaranteed
when the pair is not preceded by further `dark:bg-gray-800` copies. -/
theorem c4_amended :
    transform (S "dark:bg-black dark:bg-gray-800") = S "dark:bg-black" ∧
    transform (S "dark:bg-gray-800 dark:bg-black") = S "dark:bg-black" := by
  refine ⟨by decide, by decide⟩

/-- C5 counterexample: the claim states that every occurrence of
`dark:bg-gray-700` is replaced so that `dark:bg-gray-800` stands in its
place in the output.  For the input `dark:bg-gray-700 dark:bg-black` the
renaming produces `dark:bg-gray-800 dark:bg-black`, which the very next
collision rule collapses to `dark:bg-black`: the output contains no
`dark:bg-gray-800` at all. -/
theorem c5_counterexample :
    transform (S "dark:bg-gray-700 dark:bg-black") = S "dark:bg-black" ∧
    containsSub (S "dark:bg-gray-800") (transform (S "dark:bg-gray-700 dark:bg-black"))
      = false := by
  refine ⟨by decide, by decide⟩

/-- C5 amended: the standardization rule does rename globally — after one
run no input occurrence of `dark:bg-gray-700` survives, for every input
text — but the renamed token need not stand in its place in the output,
because the subsequent collision rules may collapse it into
`dark:bg-black`.  On the spec's own example (the token by itself) the
output is exactly `dark:bg-gray-800`. -/
theorem c5_amended :
    (∀ s : Str, containsSub (S "dark:bg-gray-700") (transform s) = false) ∧
    transform (S "dark:bg-gray-700") = S "dark:bg-gray-800" := by
  constructor
  · intro s
    rw [transform]
    have hfold : replacements.foldl (fun acc r => subst r acc) s =
        subst ⟨false, S "dark:bg-gray-800 dark:bg-black", S "dark:bg-black"⟩
          (subst ⟨false, S "dark:bg-gray-700", S "dark:bg-gray-800"⟩
            (List.foldl (fun acc r => subst r acc) s
              [⟨true, S "bg-white", S "bg-white dark:bg-black"⟩,
               ⟨true, S "bg-gray-50", S "bg-gray-50 dark:bg-gray-900"⟩,
               ⟨true, S "bg-gray-100", S "bg-gray-100 dark:bg-gray-800"⟩,
               ⟨true, S "text-gray-900", S "text-gray-900 dark:text-white"⟩,
               ⟨true, S "text-gray-800", S "text-gray-800 dark:text-gray-100"⟩,
               ⟨true, S "text-gray-700", S "text-gray-700 dark:text-gray-200"⟩,
               ⟨true, S "text-gray-600", S "text-gray-600 dark:text-gray-300"⟩,
               ⟨true, S "text-gray-500", S "text-gray-500 dark:text-gray-400"⟩,
               ⟨true, S "border-gray-200", S "border-gray-200 dark:border-gray-700"⟩,
               ⟨true, S "border-gray-300", S "border-gray-300 dark:border-gray-600"⟩,
               ⟨true, S "divide-gray-200", S "divide-gray-200 dark:divide-gray-700"⟩,
               ⟨false, S "dark:bg-black dark:bg-black", S "dark:bg-black"⟩,
               ⟨false, S "dark:bg-black dark:bg-gray-800", S "dark:bg-black"⟩,
               ⟨false, S "dark:bg-gray-800 dark:bg-black", S "dark:bg-black"⟩,
               ⟨false, S "dark:text-white dark:text-white", S "dark:text-white"⟩])) := by
      simp only [replacements, List.foldl_cons, List.foldl_nil]
    rw [hfold]
    apply subst_abs_preserve _ _ (by decide) (by decide) (by decide)
    apply subst_abs_preserve _ _ (by decide) (by decide) (by decide)
    apply subst_abs_self _ _ (by decide) (by decide) (by decide) (by decide) (by decide)
  · decide

/-- C6: `update_file` writes (and reports, since the `print` sits in the
same `if`) exactly when the transformed text differs from the original;
and a file matched by none of the fixed rule patterns is left byte-for-byte
identical and is neither written nor reported. -/
theorem c6_write_iff_changed (content : Str) :
    ((update_file content).wrote = true ↔ transform content ≠ content) ∧
    (matchesNone content = true →
      (update_file content).content = content ∧ (update_file content).wrote = false) := by
  constructor
  · by_cases h : transform content = content
    · simp [update_file, h]
    · simp [update_file, h]
  · intro h
    have ht := transform_eq_of_matchesNone content h
    simp [update_file, ht]

/-- C6 witness: a text containing none of the fixed tokens, e.g. `hello`,
fires no rule, is left unchanged and is not reported. -/
theorem c6_witness :
    matchesNone (S "hello") = true ∧
    (update_file (S "hello")).content = S "hello" ∧
    (update_file (S "hello")).wrote = false :=
  ⟨by decide, (c6_write_iff_changed (S "hello")).2 (by decide)⟩

/-- C7: the read (`open` / `read` / UTF-8 decode) happens before any
transformation or write and is not wrapped in any handler, so a read or
decode error is returned as-is by `update_file` — no write is attempted
for that file — and the surrounding `process_directory` loop has no
per-file isolation either: the first failing file aborts the run, leaving
the remaining files unprocessed. -/
theorem c7_read_error_propagates (e : String) (pre post : List (Except String Str))
    (hpre : ∀ r ∈ pre, ∃ c, r = Except.ok c) :
    update_file_io (Except.error e) = Except.error e ∧
    process_files (pre ++ Except.error e :: post) = Except.error e := by
  refine ⟨rfl, ?_⟩
  induction pre with
  | nil => rfl
  | cons r rs ih =>
    have hrest : ∀ r' ∈ rs, ∃ c, r' = Except.ok c :=
      fun r' hr' => hpre r' (List.mem_cons_of_mem r hr')
    obtain ⟨c, rfl⟩ := hpre r (List.mem_cons_self r rs)
    rw [List.cons_append, process_files]
    simp only [update_file_io]
    rw [ih hrest]

/-! ### The walker visits exactly the `.tsx` files (C8) -/

theorem process_directory_eq_procFrames (root : Str) (e : FSEntry) :
    process_directory root e = procFrames (osWalk root e) := rfl

mutual
theorem osWalk_perm (e : FSEntry) : ∀ root : Str,
    List.Perm (procFrames (osWalk root e)) (specFiles root e) := by
  cases e with
  | file n =>
    intro root
    simp only [osWalk, procFrames, specFiles, allFiles, List.flatMap_nil,
      List.filter_nil, List.map_nil]
    exact List.Perm.nil
  | dir n ch =>
    intro root
    simpa only [osWalk, procFrames, specFiles, allFiles, List.flatMap_cons,
      specFilesIn] using osWalkChildren_perm ch root
theorem osWalkChildren_perm (ch : FSList) : ∀ root : Str,
    List.Perm
      (((fileNames ch).filter endsWithTsx).map (fun f => pathJoin root f)
        ++ procFrames (osWalkChildren root ch))
      (specFilesIn root ch) := by
  cases ch with
  | nil =>
    intro root
    simp only [fileNames, osWalkChildren, procFrames, specFilesIn, allFilesIn,
      List.flatMap_nil, List.filter_nil, List.map_nil, List.append_nil]
    exact List.Perm.nil
  | cons e es =>
    intro root
    cases e with
    | file n =>
      by_cases h : endsWithTsx n = true
      · simpa only [fileNames, osWalkChildren, specFilesIn, allFilesIn,
          List.filter_cons, h, if_true, List.map_cons, List.cons_append]
          using List.Perm.cons (pathJoin root n) (osWalkChildren_perm es root)
      · simpa only [fileNames, osWalkChildren, specFilesIn, allFilesIn,
          List.filter_cons, h, if_false] using osWalkChildren_perm es root
    | dir n ch' =>
      have h1 := osWalk_perm (FSEntry.dir n ch') (pathJoin root n)
      have h2 := osWalkChildren_perm es root
      simp only [fileNames, osWalkChildren, specFilesIn, allFilesIn,
        List.filter_append, List.map_append, procFrames, List.flatMap_append]
      refine List.Perm.trans ?_
        (List.Perm.append (by simpa only [procFrames] using h1)
          (by simpa only [procFrames] using h2))
      rw [← List.append_assoc, ← List.append_assoc]
      exact List.Perm.append_right _ List.perm_append_comm
end

/-- C8: `process_directory` passes to `update_file` exactly the reachable
files whose name ends with `.tsx` (as a multiset of joined paths — the
order across directories is walk order).  No other path is handed to
`update_file`, which is the only function that reads or writes files. -/
theorem c8_walker_visits_exactly_tsx (root : Str) (e : FSEntry) :
    List.Perm (process_directory root e)
      (((allFiles root e).filter (fun pr => endsWithTsx pr.2)).map
        (fun pr => pathJoin pr.1 pr.2)) := by
  simpa only [process_directory_eq_procFrames, specFiles] using osWalk_perm e root

/-- C7 witness: with one successfully-read file before it, an erroring
file aborts the whole run with that error. -/
theorem c7_witness :
    update_file_io (Except.error "decode error") = Except.error "decode error" ∧
    process_files ([Except.ok (S "x")] ++ Except.error "decode error" :: []) =
      Except.error "decode error" :=
  c7_read_error_propagates "decode error" [Except.ok (S "x")] []
    (by intro r hr
        rw [List.mem_singleton] at hr
        exact ⟨S "x", hr⟩)

/-- C9: a colon is not a regex word character, so the leading `\b` of the
pairing pattern `\bbg-gray-50\b` also holds just after the prefix `dark:`,
and the pattern matches inside the already-dark token `dark:bg-gray-50`.
For every input text, each occurrence of `dark:bg-gray-50` followed by a
word boundary gives rise to an occurrence of
`dark:bg-gray-50 dark:bg-gray-900` in the output of one run of the
transform, and the token standing by itself is rewritten to exactly that
pair. -/
theorem c9_dark_prefixed_token_paired :
    (∀ s : Str, countTB (S "dark:bg-gray-50") s
        ≤ countOcc (S "dark:bg-gray-50 dark:bg-gray-900") (transform s)) ∧
    transform (S "dark:bg-gray-50") = S "dark:bg-gray-50 dark:bg-gray-900" := by
  constructor
  · intro s
    rw [transform]
    have hfold : replacements.foldl (fun acc r => subst r acc) s
        = List.foldl (fun acc r => subst r acc)
            (subst ⟨true, S "bg-gray-50", S "bg-gray-50 dark:bg-gray-900"⟩
              (subst ⟨true, S "bg-white", S "bg-white dark:bg-black"⟩ s))
            [⟨true, S "bg-gray-100", S "bg-gray-100 dark:bg-gray-800"⟩,
             ⟨true, S "text-gray-900", S "text-gray-900 dark:text-white"⟩,
             ⟨true, S "text-gray-800", S "text-gray-800 dark:text-gray-100"⟩,
             ⟨true, S "text-gray-700", S "text-gray-700 dark:text-gray-200"⟩,
             ⟨true, S "text-gray-600", S "text-gray-600 dark:text-gray-300"⟩,
             ⟨true, S "text-gray-500", S "text-gray-500 dark:text-gray-400"⟩,
             ⟨true, S "border-gray-200", S "border-gray-200 dark:border-gray-700"⟩,
             ⟨true, S "border-gray-300", S "border-gray-300 dark:border-gray-600"⟩,
             ⟨true, S "divide-gray-200", S "divide-gray-200 dark:divide-gray-700"⟩,
             ⟨false, S "dark:bg-black dark:bg-black", S "dark:bg-black"⟩,
             ⟨false, S "dark:bg-black dark:bg-gray-800", S "dark:bg-black"⟩,
             ⟨false, S "dark:bg-gray-800 dark:bg-black", S "dark:bg-black"⟩,
             ⟨false, S "dark:text-white dark:text-white", S "dark:text-white"⟩,
             ⟨false, S "dark:bg-gray-700", S "dark:bg-gray-800"⟩,
             ⟨false, S "dark:bg-gray-800 dark:bg-black", S "dark:bg-black"⟩] := by
      simp only [replacements, List.foldl_cons, List.foldl_nil]
    rw [hfold]
    refine ((subst_countTB (S "dark:bg-gray-50")
        ⟨true, S "bg-white", S "bg-white dark:bg-black"⟩
        (by decide) (by decide) (by decide) s).trans ?_)
    refine ((subst_fire (S "dark:bg-gray-50") (S "dark:")
        ⟨true, S "bg-gray-50", S "bg-gray-50 dark:bg-gray-900"⟩
        (S "dark:bg-gray-50 dark:bg-gray-900")
        (by decide) (by decide) (by decide) (by decide) (by decide) (by decide)
        (by decide) (by decide) _).trans ?_)
    refine ((foldl_count (S "dark:bg-gray-50 dark:bg-gray-900") (replacements.drop 2)
        (by decide) (by decide) _).trans ?_)
    exact subst_count (S "dark:bg-gray-50 dark:bg-gray-900") finalRule
      (by decide) (by decide) (by decide) _
  · decide

end UpdateDarkMode
